import Mathlib

/-!
# SiteMapper: verification of the crawl-engine core

A shallow embedding, in Lean 4, of the core of the SiteMapper crawler
(`site_mapper/core/`): the URL normaliser, the link registry
(`LinkManager`), the link classifier (`LinkExtractor`), the document
parser (`DocumentParser`) and the scheduler (`SiteProcessor`), together
with theorems settling the specified properties of each component.

URLs and other Python strings are modelled as `List Char` (ASCII).  The
Python standard-library routines the code leans on (`urllib.parse.urlparse`,
`urlunparse`, `urljoin`, CPython 3.11 semantics) are modelled explicitly
below, since the registry's and extractor's behaviour depends on their
details.  Database tables are modelled as lists kept in insertion order
(SQLite returns rows of an unordered queryset in rowid, i.e. insertion,
order, which is what `.first()` on an unordered queryset observes).
-/

namespace SiteMapper

/-- Python strings, as lists of (ASCII) characters. -/
abbrev Chars := List Char

/-! ## Character classes and ASCII lower-casing -/

/-- ASCII upper-case letter test. -/
def isUpperA (c : Char) : Bool := 'A' ≤ c && c ≤ 'Z'

/-- ASCII lower-case letter test. -/
def isLowerA (c : Char) : Bool := 'a' ≤ c && c ≤ 'z'

/-- ASCII letter test (Python `c.isascii() and c.isalpha()`). -/
def isAlphaA (c : Char) : Bool := isUpperA c || isLowerA c

/-- ASCII digit test. -/
def isDigitA (c : Char) : Bool := '0' ≤ c && c ≤ '9'

/-- ASCII lower-casing of one character, as Python `str.lower` acts on
ASCII input.  Spelled as an explicit table so that facts such as
`lowerChar c = '.' → c = '.'` follow by case analysis. -/
def lowerChar (c : Char) : Char :=
  match c with
  | 'A' => 'a' | 'B' => 'b' | 'C' => 'c' | 'D' => 'd' | 'E' => 'e'
  | 'F' => 'f' | 'G' => 'g' | 'H' => 'h' | 'I' => 'i' | 'J' => 'j'
  | 'K' => 'k' | 'L' => 'l' | 'M' => 'm' | 'N' => 'n' | 'O' => 'o'
  | 'P' => 'p' | 'Q' => 'q' | 'R' => 'r' | 'S' => 's' | 'T' => 't'
  | 'U' => 'u' | 'V' => 'v' | 'W' => 'w' | 'X' => 'x' | 'Y' => 'y'
  | 'Z' => 'z'
  | c => c

/-- `str.lower` on an ASCII string. -/
def lowerS (s : Chars) : Chars := s.map lowerChar

/-- Python `s.endswith(suf)`. -/
def endsWith (s suf : Chars) : Bool := decide (suf <:+ s)

/-! ## Python `str.split` and friends -/

/-- Python `s.split(c)` for a one-character separator: the list of
(possibly empty) chunks between occurrences of `c`. -/
def splitChar (c : Char) : Chars → List Chars
  | [] => [[]]
  | x :: rest =>
    match splitChar c rest with
    | [] => [[]]
    | s :: ss => if x = c then [] :: s :: ss else (x :: s) :: ss

/-- Python `s.split(c, 1)[0]` / `s.split(c, 1)[1]`: the part of `s`
before the first occurrence of `c`, and the part after it (empty when
`c` does not occur, matching how the callers below use it). -/
def beforeFirst (c : Char) (s : Chars) : Chars := s.takeWhile (fun x => x ≠ c)

/-- The part of `s` after the first occurrence of `c` (empty if none). -/
def afterFirst (c : Char) (s : Chars) : Chars := (s.dropWhile (fun x => x ≠ c)).drop 1

/-- Python `s.rstrip(c)` for a single strip character: removes ALL
trailing occurrences of `c`. -/
def rstripChar (c : Char) (s : Chars) : Chars := (s.reverse.dropWhile (fun x => x = c)).reverse

/-- Python whitespace, as recognised by `str.strip()`. -/
def isSpaceP (c : Char) : Bool :=
  c = ' ' || c = '\t' || c = '\n' || c = '\x0b' || c = '\x0c' || c = '\r'

/-- Python `s.strip()`. -/
def pyStrip (s : Chars) : Chars :=
  ((s.dropWhile isSpaceP).reverse.dropWhile isSpaceP).reverse

/-! ## A model of CPython 3.11 `urllib.parse`

The registry's `_normalize_url`, the extractor's `_normalize_url` and the
relative-link resolution all go through `urlparse` / `urlunparse` /
`urljoin`; the functions below model those routines (for ASCII input
without bracketed IPv6 hosts, which would raise). -/

/-- The components of a parsed URL (`urllib.parse.ParseResult`). -/
structure UrlParts where
  scheme : Chars
  netloc : Chars
  path : Chars
  params : Chars
  query : Chars
  fragment : Chars
deriving DecidableEq, Repr

/-- A character allowed inside a URL scheme
(`urllib.parse.scheme_chars`). -/
def isSchemeChar (c : Char) : Bool :=
  isAlphaA c || isDigitA c || c = '+' || c = '-' || c = '.'

/-- Scan up to the first `':'`, requiring every character before it to be
a scheme character; returns the raw scheme and the remainder.  Models the
scheme-detection loop of `urlsplit`. -/
def scanScheme : Chars → Option (Chars × Chars)
  | [] => none
  | c :: rest =>
    if c = ':' then some ([], rest)
    else if isSchemeChar c then
      (scanScheme rest).map (fun p => (c :: p.1, p.2))
    else none

/-- `urlsplit` scheme detection: a scheme is recognised when the URL has
a `':'` at position `> 0`, its first character is an ASCII letter and
everything before the `':'` is a scheme character; the scheme is
lower-cased at detection. -/
def splitScheme (url : Chars) : Option (Chars × Chars) :=
  match url with
  | [] => none
  | c :: _ =>
    if isAlphaA c then (scanScheme url).map (fun p => (lowerS p.1, p.2)) else none

/-- `_splitnetloc`: the netloc extends to the first `'/'`, `'?'` or
`'#'`. -/
def netlocStop (c : Char) : Bool := c = '/' || c = '?' || c = '#'

/-- Characters `urlsplit` removes from the URL before parsing
(`_UNSAFE_URL_BYTES_TO_REMOVE`). -/
def isUnsafeUrlChar (c : Char) : Bool := c = '\t' || c = '\r' || c = '\n'

/-- Model of `urllib.parse.urlsplit(url, scheme=default)` with
`allow_fragments=True` (`params` left empty; `urlparseM` fills it). -/
def urlsplitM (url0 defaultScheme : Chars) : UrlParts :=
  let url1 := url0.filter (fun c => ¬ isUnsafeUrlChar c)
  let sr : Chars × Chars :=
    match splitScheme url1 with
    | some p => p
    | none => (defaultScheme, url1)
  let rest0 := sr.2
  let nr : Chars × Chars :=
    if "//".data <+: rest0 then
      ((rest0.drop 2).takeWhile (fun c => ¬ netlocStop c),
       (rest0.drop 2).dropWhile (fun c => ¬ netlocStop c))
    else ([], rest0)
  let fragment := afterFirst '#' nr.2
  let rest1 := beforeFirst '#' nr.2
  let query := afterFirst '?' rest1
  let path := beforeFirst '?' rest1
  ⟨sr.1, nr.1, path, [], query, fragment⟩

/-- `_splitparams`: split `params` off the path at the first `';'` in
the last path segment. -/
def splitParams (p : Chars) : Chars × Chars :=
  if ';' ∈ p then
    if '/' ∈ p then
      let lastSeg := (p.reverse.takeWhile (fun c => c ≠ '/')).reverse
      if ';' ∈ lastSeg then
        (p.take (p.length - lastSeg.length) ++ beforeFirst ';' lastSeg,
         afterFirst ';' lastSeg)
      else (p, [])
    else (beforeFirst ';' p, afterFirst ';' p)
  else (p, [])

/-- Model of `urllib.parse.urlparse(url, scheme=default)`. -/
def urlparseM (url defaultScheme : Chars) : UrlParts :=
  let u := urlsplitM url defaultScheme
  let pp := splitParams u.path
  ⟨u.scheme, u.netloc, pp.1, pp.2, u.query, u.fragment⟩

/-- Model of `urllib.parse.urlunsplit`. -/
def urlunsplitM (scheme netloc path query fragment : Chars) : Chars :=
  let url1 :=
    if netloc ≠ [] ∨ "//".data <+: path then
      let u := if path ≠ [] ∧ ¬ ("/".data <+: path) then '/' :: path else path
      "//".data ++ netloc ++ u
    else path
  let url2 := if scheme ≠ [] then scheme ++ ':' :: url1 else url1
  let url3 := if query ≠ [] then url2 ++ '?' :: query else url2
  if fragment ≠ [] then url3 ++ '#' :: fragment else url3

/-- Model of `urllib.parse.urlunparse`. -/
def urlunparseM (p : UrlParts) : Chars :=
  let path := if p.params ≠ [] then p.path ++ ';' :: p.params else p.path
  urlunsplitM p.scheme p.netloc path p.query p.fragment

/-- `urllib.parse.uses_relative` (the schemes for which relative
resolution against a base is performed). -/
def usesRelative : List Chars :=
  ["".data, "ftp".data, "http".data, "gopher".data, "nntp".data, "imap".data,
   "wais".data, "file".data, "https".data, "shttp".data, "mms".data,
   "prospero".data, "rtsp".data, "rtspu".data, "sftp".data, "svn".data,
   "svn+ssh".data, "ws".data, "wss".data]

/-- `urllib.parse.uses_netloc`. -/
def usesNetloc : List Chars :=
  ["".data, "ftp".data, "http".data, "gopher".data, "nntp".data, "telnet".data,
   "imap".data, "wais".data, "file".data, "mms".data, "https".data,
   "shttp".data, "snews".data, "prospero".data, "rtsp".data, "rtspu".data,
   "rsync".data, "svn".data, "svn+ssh".data, "sftp".data, "nfs".data,
   "git".data, "git+ssh".data, "ws".data, "wss".data]

/-- `filter(None, segments[1:-1])` of `urljoin`'s segment merge: drop
empty interior segments, keeping the first and last. -/
def filterMiddle (segs : List Chars) : List Chars :=
  match segs with
  | [] => []
  | [x] => [x]
  | x :: rest => x :: ((rest.dropLast.filter (fun s => s ≠ [])) ++ [rest.getLastD []])

/-- The `'..'` / `'.'` resolution loop of `urljoin`. -/
def resolveSegs (segs : List Chars) : List Chars :=
  segs.foldl
    (fun acc seg =>
      if seg = "..".data then acc.dropLast
      else if seg = ".".data then acc
      else acc ++ [seg])
    []

/-- Model of `urllib.parse.urljoin` (CPython 3.11). -/
def urljoinM (base url : Chars) : Chars :=
  if base = [] then url
  else if url = [] then base
  else
    let b := urlparseM base []
    let u := urlparseM url b.scheme
    if u.scheme ≠ b.scheme ∨ u.scheme ∉ usesRelative then url
    else if u.scheme ∈ usesNetloc ∧ u.netloc ≠ [] then urlunparseM u
    else
      let netloc := if u.scheme ∈ usesNetloc then b.netloc else u.netloc
      if u.path = [] ∧ u.params = [] then
        let query := if u.query = [] then b.query else u.query
        urlunparseM ⟨u.scheme, netloc, b.path, b.params, query, u.fragment⟩
      else
        let baseParts0 := splitChar '/' b.path
        let baseParts :=
          if baseParts0.getLastD [] ≠ [] then baseParts0.dropLast else baseParts0
        let segments :=
          if "/".data <+: u.path then splitChar '/' u.path
          else filterMiddle (baseParts ++ splitChar '/' u.path)
        let resolved0 := resolveSegs segments
        let resolved :=
          if segments.getLastD [] = ".".data ∨ segments.getLastD [] = "..".data
          then resolved0 ++ [[]] else resolved0
        let joined := List.intercalate "/".data resolved
        let path := if joined = [] then "/".data else joined
        urlunparseM ⟨u.scheme, netloc, path, u.params, u.query, u.fragment⟩

/-! ## `LinkManager._normalize_url` and `should_filter_url` -/

/-- `LinkManager._normalize_url`: lower-case scheme and netloc, strip
trailing slashes from the path (`path.rstrip('/')`) unless the path is
empty or exactly `'/'`, drop the fragment, keep params and query. -/
def normalizeUrl (url : Chars) : Chars :=
  if url = [] then url
  else
    let parsed := urlparseM url []
    let netloc := lowerS parsed.netloc
    let path :=
      if parsed.path ≠ [] ∧ parsed.path ≠ "/".data ∧ endsWith parsed.path "/".data
      then rstripChar '/' parsed.path
      else parsed.path
    urlunparseM ⟨lowerS parsed.scheme, netloc, path, parsed.params, parsed.query, []⟩

/-- `LinkManager.should_filter_url`: a URL is filtered when any cached
`SiteFilter` pattern occurs as a substring of its normalised form. -/
def shouldFilterUrl (filters : List Chars) (url : Chars) : Bool :=
  if url = [] then false
  else filters.any (fun f => decide (f <:+: normalizeUrl url))

/-! ## The link registry (`LinkManager` over the `Link` table) -/

/-- A row of the `Link` table.  `id` models the UUID primary key (unique
per row); `startingUrl = none` models SQL `NULL`. -/
structure LinkRec where
  id : Nat
  url : Chars
  typ : Chars
  parentId : Option Nat
  depth : Nat
  linkText : Chars
  startingUrl : Option Chars
  processed : Bool
  filePath : Option Chars
deriving DecidableEq, Repr

/-- The mutable store `add_link` acts on: the job's `Link` rows in
insertion order, the job counters, a fresh-id source, and the cached
`SiteFilter` patterns. -/
structure RegState where
  links : List LinkRec
  totalLinks : Nat
  processedLinks : Nat
  nextId : Nat
  filters : List Chars
deriving DecidableEq, Repr

/-- Python truthiness of an optional string: `None` and `''` are falsy. -/
def isFalsyOpt (o : Option Chars) : Bool :=
  match o with
  | none => true
  | some s => s = []

/-- `self._normalize_url(starting_url) if starting_url else None`. -/
def normStartOpt (startingUrl : Option Chars) : Option Chars :=
  match startingUrl with
  | some s => if s = [] then none else some (normalizeUrl s)
  | none => none

/-- The valid `link_type` values accepted by `add_link`. -/
def validTypes : List Chars :=
  ["page".data, "pdf".data, "docx".data, "xlsx".data, "other".data, "broken".data]

/-- Rewrite the row with the given id in place (`existing_link.save()`;
ids are unique, so at most one row changes). -/
def updateLink (links : List LinkRec) (id : Nat) (f : LinkRec → LinkRec) : List LinkRec :=
  links.map (fun l => if l.id = id then f l else l)

/-- The row-creation tail of `add_link`: build the `Link` (with
`link_text = link_text or url` against the ORIGINAL url), append it, and
bump `total_links`. -/
def createLink (st : RegState) (nurl typ : Chars) (parentId : Option Nat)
    (depth : Nat) (linkText : Option Chars) (nstart : Option Chars)
    (origUrl : Chars) : Option Nat × RegState :=
  let text :=
    match linkText with
    | some t => if t = [] then origUrl else t
    | none => origUrl
  let newRec : LinkRec :=
    ⟨st.nextId, nurl, typ, parentId, depth, text, nstart, false, none⟩
  (some st.nextId,
   { st with links := st.links ++ [newRec],
             totalLinks := st.totalLinks + 1,
             nextId := st.nextId + 1 })

/-- `LinkManager.add_link`.  Returns the id of the created or existing
row (or `none`) together with the updated store.  Matches the source:
empty URL rejected; filtering skipped at depth 0; invalid type rejected;
depth-0 lookups match `(url, depth=0)` and only repair `starting_url`;
other lookups match on `url` alone and rewrite `depth`/`parent_id` when
a strictly smaller depth arrives, setting `starting_url` only when it
was missing. -/
def addLink (st : RegState) (url linkType : Chars) (parentId : Option Nat)
    (depth : Nat) (linkText : Option Chars) (startingUrl : Option Chars) :
    Option Nat × RegState :=
  if url = [] then (none, st)
  else if depth ≠ 0 ∧ shouldFilterUrl st.filters url then (none, st)
  else if linkType ∉ validTypes then (none, st)
  else
    let nurl := normalizeUrl url
    let nstart := normStartOpt startingUrl
    if depth = 0 then
      match st.links.find? (fun l => l.url = nurl && l.depth = 0) with
      | some l =>
        if isFalsyOpt l.startingUrl || ¬ (l.startingUrl = some nurl) then
          (some l.id,
           { st with links := updateLink st.links l.id
                       (fun x => { x with startingUrl := some nurl }) })
        else (some l.id, st)
      | none => createLink st nurl linkType parentId 0 linkText (some nurl) url
    else
      match st.links.find? (fun l => l.url = nurl) with
      | some l =>
        if l.depth > depth then
          (some l.id,
           { st with links := updateLink st.links l.id
                       (fun x =>
                         { x with depth := depth, parentId := parentId,
                                  startingUrl :=
                                    if ¬ isFalsyOpt nstart ∧ isFalsyOpt x.startingUrl
                                    then nstart else x.startingUrl }) })
        else (some l.id, st)
      | none => createLink st nurl linkType parentId depth linkText nstart url

/-- One element of the batch passed to `add_links`
(`{'url': ..., 'text': ..., 'type': ...}`; a missing or `None` url is
modelled as `[]`, which is equally falsy). -/
structure BatchItem where
  url : Chars
  text : Chars
  typ : Chars
deriving DecidableEq, Repr

/-- `LinkManager.add_links`: pre-filter the batch (dropping falsy URLs
and URLs matching a `SiteFilter` REGARDLESS of depth), resolve a missing
`starting_url` from the parent row or — at depth 0 — from the first
surviving item, then `add_link` each item, counting truthy results. -/
def addLinks (st : RegState) (items : List BatchItem) (parentId : Option Nat)
    (depth : Nat) (startingUrl : Option Chars) : Nat × RegState :=
  let filtered := items.filter
    (fun it => it.url ≠ [] && ¬ shouldFilterUrl st.filters it.url)
  let su1 : Option Chars :=
    if isFalsyOpt startingUrl ∧ parentId ≠ none then
      match parentId.bind (fun pid => st.links.find? (fun l => l.id = pid)) with
      | some parent => if isFalsyOpt parent.startingUrl then startingUrl else parent.startingUrl
      | none => startingUrl
    else startingUrl
  let su2 : Option Chars :=
    if isFalsyOpt su1 ∧ depth = 0 ∧ filtered ≠ [] then
      match filtered.head? with
      | some it => if it.url = [] then su1 else some it.url
      | none => su1
    else su1
  filtered.foldl
    (fun (acc : Nat × RegState) it =>
      let su3 := if depth = 0 ∧ isFalsyOpt su2 then some it.url else su2
      let r := addLink acc.2 it.url it.typ parentId depth (some it.text) su3
      (if r.1.isSome then acc.1 + 1 else acc.1, r.2))
    (0, st)

/-! ## Hierarchical export (`LinkManager._build_hierarchical_structure`) -/

/-- A node of the exported JSON tree. -/
inductive ExportNode where
  | mk (url text typ : Chars) (depth : Nat) (processed : Bool)
       (filePath : Option Chars) (children : List ExportNode)

/-- The `url` field of an exported node. -/
def ExportNode.url : ExportNode → Chars
  | .mk u _ _ _ _ _ _ => u

/-- `children_map`: the rows whose `parent_id` is the given id, in table
order. -/
def childrenOf (links : List LinkRec) (id : Nat) : List LinkRec :=
  links.filter (fun l => l.parentId = some id)

/-- `build_node`, with a fuel argument bounding the recursion depth.
The Python recursion is unbounded; for parent-acyclic inputs any fuel
`≥ links.length` computes the same tree, and all inputs considered here
are acyclic. -/
def buildNode (links : List LinkRec) : Nat → LinkRec → ExportNode
  | 0, l => .mk l.url l.linkText l.typ l.depth l.processed l.filePath []
  | fuel + 1, l =>
    .mk l.url l.linkText l.typ l.depth l.processed l.filePath
      ((childrenOf links l.id).map (buildNode links fuel))

/-- The orphan test of the no-roots fallback:
`not link.parent_id or str(link.parent_id) not in link_map`. -/
def isOrphan (links : List LinkRec) (l : LinkRec) : Bool :=
  match l.parentId with
  | none => true
  | some p => ¬ links.any (fun x => x.id = p)

/-- `_build_hierarchical_structure`: the `roots` list of the exported
structure.  Roots are the depth-0 rows; ONLY when there are none at all
does the orphan fallback export parentless rows instead. -/
def buildHierarchy (links : List LinkRec) : List ExportNode :=
  let roots := links.filter (fun l => l.depth = 0)
  if roots.isEmpty then
    (links.filter (isOrphan links)).map (buildNode links links.length)
  else
    roots.map (buildNode links links.length)

/-! ## The link classifier (`LinkExtractor`)

HTML parsing itself (BeautifulSoup) is outside the embedding; an anchor
is modelled as its `href`, its `get_text(strip=True)` result, and the
two DOM facts the classifier queries: whether the anchor lies inside a
navigation landmark and whether it lies inside an announcement region
(`link in element.descendants` over the fixed selector lists). -/

/-- An `<a href=...>` element as the classifier sees it. -/
structure Anchor where
  href : Chars
  text : Chars
  inNav : Bool
  inAnnouncement : Bool
deriving DecidableEq, Repr

/-- `LinkExtractor.DOCUMENT_EXTENSIONS` as an association list, in the
dict's insertion order. -/
def documentExtensions : List (Chars × Chars) :=
  [("pdf".data, "pdf".data), ("docx".data, "docx".data), ("doc".data, "docx".data),
   ("xlsx".data, "xlsx".data), ("xls".data, "xlsx".data),
   ("pptx".data, "pptx".data), ("ppt".data, "pptx".data)]

/-- `DOCUMENT_EXTENSIONS.values()` membership (the document-bucket
test). -/
def docKinds : List Chars := ["pdf".data, "docx".data, "xlsx".data, "pptx".data]

/-- `LinkExtractor._determine_link_type`:
`url.split('.')[-1].lower().split('?')[0]` looked up in
`DOCUMENT_EXTENSIONS`, defaulting to `'page'`. -/
def leDetermineLinkType (url : Chars) : Chars :=
  if url = [] then "page".data
  else
    let ext := beforeFirst '?' (lowerS ((splitChar '.' url).getLastD []))
    match (documentExtensions.find? (fun p => p.1 = ext)) with
    | some p => p.2
    | none => "page".data

/-- The local-part character class of `EMAIL_PATTERN`
(`[a-zA-Z0-9._%+-]`). -/
def isLocalChar (c : Char) : Bool :=
  isAlphaA c || isDigitA c || c = '.' || c = '_' || c = '%' || c = '+' || c = '-'

/-- The domain character class of `EMAIL_PATTERN` (`[a-zA-Z0-9.-]`). -/
def isDomainChar (c : Char) : Bool :=
  isAlphaA c || isDigitA c || c = '.' || c = '-'

/-- Whether the part after `'@'` matches `[a-zA-Z0-9.-]+\.[a-zA-Z]{2,}$`:
equivalently (since `'.'` is not alphabetic, the matched dot must be the
last one) the suffix after the last `'.'` is ≥ 2 ASCII letters and the
non-empty part before it is domain characters. -/
def emailDomainMatch (rest : Chars) : Bool :=
  let revTld := rest.reverse.takeWhile (fun c => c ≠ '.')
  match rest.reverse.drop revTld.length with
  | '.' :: revDom =>
    2 ≤ revTld.length && revTld.all isAlphaA && revDom ≠ [] && revDom.all isDomainChar
  | _ => false

/-- Decision procedure for
`EMAIL_PATTERN = ^(?:mailto:)?[a-zA-Z0-9._%+-]+@[a-zA-Z0-9.-]+\.[a-zA-Z]{2,}$`.
`':'` belongs to no character class of the pattern, so the optional
`mailto:` branch fires exactly on that literal prefix, and the string
must contain exactly one `'@'` (it separates the local part from the
domain). -/
def emailMatch (s : Chars) : Bool :=
  let t := if "mailto:".data <+: s then s.drop 7 else s
  match splitChar '@' t with
  | [loc, rest] => loc ≠ [] && loc.all isLocalChar && emailDomainMatch rest
  | _ => false

/-- The repetition-body class of `PHONE_PATTERN` (`[\d\s\(\)-]` plus the
optional leading `'+'`). -/
def isPhoneChar (c : Char) : Bool :=
  isDigitA c || isSpaceP c || c = '(' || c = ')' || c = '-' || c = '+'

/-- Every `'+'` is immediately followed by a digit (a `'+'` can only
open a `\+?\d...` group). -/
def plusThenDigit : Chars → Bool
  | [] => true
  | '+' :: rest =>
    match rest with
    | d :: _ => isDigitA d && plusThenDigit rest
    | [] => false
  | _ :: rest => plusThenDigit rest

/-- Decision procedure for
`PHONE_PATTERN = ^(?:tel:)?(?:\+?\d[\d\s\(\)-]*){5,}$`.  A string is in
the language iff (after the optional `tel:` prefix — `':'` is in no
class, so stripping it is exact) it is non-empty, uses only the allowed
characters, starts with `'+'` or a digit, every `'+'` is followed by a
digit, and it contains at least 5 digits (each group contributes exactly
one mandatory digit, and group boundaries may be placed before every
digit). -/
def phoneMatch (s : Chars) : Bool :=
  let t := if "tel:".data <+: s then s.drop 4 else s
  match t with
  | [] => false
  | c :: _ =>
    (c = '+' || isDigitA c) && t.all isPhoneChar && plusThenDigit t &&
      5 ≤ t.countP (fun c => isDigitA c)

/-- `LinkExtractor._is_email_link`. -/
def isEmailLink (url : Chars) : Bool :=
  if url = [] then false
  else if "mailto:".data <+: url then true
  else emailMatch url

/-- `LinkExtractor._is_phone_link`. -/
def isPhoneLink (url : Chars) : Bool :=
  if url = [] then false
  else if "tel:".data <+: url then true
  else phoneMatch url

/-- `LinkExtractor._normalize_url`: reject empty, `'#...'` and
`javascript:` hrefs, resolve against the base when the href has no
netloc, re-parse and drop the fragment. -/
def extNormalizeUrl (baseUrl url : Chars) : Option Chars :=
  if url = [] ∨ "#".data <+: url ∨ "javascript:".data <+: url then none
  else
    let parsed := urlparseM url []
    let absolute := if parsed.netloc = [] then urljoinM baseUrl url else url
    let pa := urlparseM absolute []
    some (urlunparseM ⟨pa.scheme, pa.netloc, pa.path, pa.params, pa.query, []⟩)

/-- An entry of an output bucket
(`{'url': ..., 'text': ..., 'type': ...}`). -/
structure LinkInfo where
  url : Chars
  text : Chars
  typ : Chars
deriving DecidableEq, Repr

/-- Which bucket a classified link lands in. -/
inductive Bucket where
  | documents
  | content
  | navigation
deriving DecidableEq, Repr

/-- The per-anchor body of the `extract_links` loop: normalise the href,
skip email/phone noise, build the link info, then bucket it (documents
by extension, navigation by landmark, announcements dropped, content
otherwise). -/
def classifyAnchor (baseUrl : Chars) (a : Anchor) : Option (Bucket × LinkInfo) :=
  match extNormalizeUrl baseUrl a.href with
  | none => none
  | some url =>
    if isEmailLink url then none
    else if isPhoneLink url then none
    else
      let info : LinkInfo :=
        ⟨url, (if a.text = [] then url else a.text), leDetermineLinkType url⟩
      if info.typ ∈ docKinds then some (.documents, info)
      else if a.inNav then some (.navigation, info)
      else if a.inAnnouncement then none
      else some (.content, info)

/-- The three output buckets of `extract_links`. -/
structure Buckets where
  documents : List LinkInfo
  content : List LinkInfo
  navigation : List LinkInfo
deriving DecidableEq, Repr

/-- Append one classification outcome to the buckets. -/
def pushAnchor (baseUrl : Chars) (a : Anchor) (acc : Buckets) : Buckets :=
  match classifyAnchor baseUrl a with
  | none => acc
  | some (.documents, e) => { acc with documents := acc.documents ++ [e] }
  | some (.content, e) => { acc with content := acc.content ++ [e] }
  | some (.navigation, e) => { acc with navigation := acc.navigation ++ [e] }

/-- The anchor loop of `extract_links`. -/
def extractAux (baseUrl : Chars) : List Anchor → Buckets → Buckets
  | [], acc => acc
  | a :: rest, acc => extractAux baseUrl rest (pushAnchor baseUrl a acc)

/-- `LinkExtractor.extract_links` over the anchors of the page
(`soup.find_all('a', href=True)` in document order). -/
def extractLinks (baseUrl : Chars) (anchors : List Anchor) : Buckets :=
  extractAux baseUrl anchors ⟨[], [], []⟩

/-! ## The document parser (`DocumentParser`) -/

/-- The result of `DocumentParser.parse`
(`{'text': ..., 'links': [...]}`). -/
structure DocResult where
  text : Chars
  links : List LinkInfo
deriving DecidableEq, Repr

/-- `os.path.splitext(p)[1]`: the extension starts at the last `'.'` of
the last path component, provided some earlier character of that
component is not a `'.'` (so `'.bashrc'` has no extension). -/
def splitextExt (p : Chars) : Chars :=
  let revBase := p.reverse.takeWhile (fun c => c ≠ '/')
  let revExt := revBase.takeWhile (fun c => c ≠ '.')
  match revBase.drop revExt.length with
  | '.' :: revPre =>
    if revPre.any (fun c => c ≠ '.') then '.' :: revExt.reverse else []
  | _ => []

/-- The outcome of the PyPDF2 pass of `_parse_pdf`: either the
accumulated page text and annotation links, or an exception part-way
through (the annotation links appended before it are retained by the
`urls` list). -/
inductive PdfPrimary where
  | ok (text : Chars) (annots : List LinkInfo)
  | err (partialAnnots : List LinkInfo)

/-- The environment of one `parse` call: the filesystem check, the
outcomes of the underlying extraction libraries (an exception is
`none` / `.err`), and `URL_PATTERN.findall` over extracted text. -/
structure DocEnv where
  fileExists : Bool
  pdfPrimary : PdfPrimary
  pdfMiner : Option Chars
  docxInner : Option (Chars × List LinkInfo)
  xlsxInner : Option (Chars × List LinkInfo)
  scan : Chars → List Chars

/-- The text-scan tail shared by the three parsers: append each found
URL not already present among the collected links (the membership test
re-reads the growing list, as the Python comprehension does). -/
def addScanned (found : List Chars) (typ : Chars) (urls : List LinkInfo) : List LinkInfo :=
  found.foldl
    (fun acc u => if u ∈ acc.map (fun e => e.url) then acc else acc ++ [⟨u, [], typ⟩])
    urls

/-- `DocumentParser._parse_pdf`: PyPDF2 first; if it yields under 100
stripped characters, or raises, fall back to pdfminer (keeping any
annotation links already collected); if the fallback also raises,
degrade to empty; otherwise URL-scan the text. -/
def parsePdf (env : DocEnv) : DocResult :=
  match env.pdfPrimary with
  | .ok t annots =>
    if (pyStrip t).length < 100 then
      match env.pdfMiner with
      | some t2 => ⟨t2, addScanned (env.scan t2) "pdf_text_link".data annots⟩
      | none => ⟨[], []⟩
    else ⟨t, addScanned (env.scan t) "pdf_text_link".data annots⟩
  | .err annots =>
    match env.pdfMiner with
    | some t2 => ⟨t2, addScanned (env.scan t2) "pdf_text_link".data annots⟩
    | none => ⟨[], []⟩

/-- `DocumentParser._parse_docx`: the whole extraction is one `try`; on
an exception degrade to empty, otherwise URL-scan the text. -/
def parseDocx (env : DocEnv) : DocResult :=
  match env.docxInner with
  | some p => ⟨p.1, addScanned (env.scan p.1) "docx_text_link".data p.2⟩
  | none => ⟨[], []⟩

/-- `DocumentParser._parse_xlsx`, identically shaped. -/
def parseXlsx (env : DocEnv) : DocResult :=
  match env.xlsxInner with
  | some p => ⟨p.1, addScanned (env.scan p.1) "xlsx_text_link".data p.2⟩
  | none => ⟨[], []⟩

/-- `DocumentParser.parse`: missing file and unsupported extension
degrade to empty; otherwise dispatch on the lower-cased extension.  The
format parsers catch their own exceptions, so the function is total:
no failure escapes this boundary. -/
def docParse (env : DocEnv) (filePath : Chars) : DocResult :=
  if ¬ env.fileExists then ⟨[], []⟩
  else
    let ext := lowerS (splitextExt filePath)
    if ext = ".pdf".data then parsePdf env
    else if ext = ".docx".data ∨ ext = ".doc".data then parseDocx env
    else if ext = ".xlsx".data ∨ ext = ".xls".data then parseXlsx env
    else ⟨[], []⟩

/-! ## The scheduler (`SiteProcessor`) -/

/-- `SiteProcessor._determine_link_type`: suffix tests against the
lower-cased URL. -/
def spDetermineLinkType (url : Chars) : Chars :=
  if url = [] then "page".data
  else
    let l := lowerS url
    if endsWith l ".pdf".data then "pdf".data
    else if endsWith l ".docx".data || endsWith l ".doc".data then "docx".data
    else if endsWith l ".xlsx".data || endsWith l ".xls".data then "xlsx".data
    else "page".data

/-- `SiteProcessor._process_depth_level`.  The worker pools only run
when unprocessed links exist; their outcome enters the return value as
`processedCount`.  When no unprocessed link exists at `depth` the return
value is decided purely from the row counts, exactly as in the source:
`False` immediately when NO row at all exists at `depth` (and
`depth < max_depth`), and the nodes-at-`depth+1` continuation check only
otherwise. -/
def processDepthLevel (links : List LinkRec) (depth maxDepth : Nat)
    (processedCount : Nat) : Bool :=
  let allAtDepth := (links.filter (fun l => l.depth = depth)).length
  let unprocessed := links.filter (fun l => l.depth = depth && ¬ l.processed)
  if unprocessed.isEmpty then
    if allAtDepth = 0 ∧ depth < maxDepth then false
    else if depth < maxDepth ∧ links.any (fun l => l.depth = depth + 1) then true
    else false
  else
    processedCount > 0 || allAtDepth > 0

/-- Job statuses. -/
inductive JStatus where
  | pending
  | processing
  | stopped
  | completed
  | failed
deriving DecidableEq, Repr

/-- The observable outcome of one `SiteProcessor.process` run: which
depth levels were begun, the index of the last status read, and the
final job status. -/
structure RunResult where
  depthsStarted : List Nat
  finalRefreshIdx : Nat
  finalStatus : JStatus
deriving DecidableEq, Repr

/-- `process` re-reads the job status at a sequence of checkpoints:
read 0 after the seed phase, read `d` before depth `d`, and a final read
after export.  An external `stopped` request is a single event on that
timeline: `tau = 0` places it before the initial `status = 'processing'`
write (which then overwrites it), `tau = k ≥ 1` places it just before
the `(k-1)`-th read.  Read `k` therefore observes `stopped` iff
`1 ≤ tau ≤ k + 1`. -/
def obsStopped (tau k : Nat) : Bool := decide (1 ≤ tau ∧ tau ≤ k + 1)

/-- The status written by the post-export completion path: `completed`
unless the re-read status is `stopped`. -/
def finalWrite (tau k : Nat) : JStatus :=
  if obsStopped tau k then .stopped else .completed

/-- The depth loop of `process` (`while current_depth <= max_depth`),
with `remaining = maxDepth + 1 - d` as the structural measure; `work d`
is the value `_process_depth_level(d)` returns (`False` breaks). -/
def processGo (work : Nat → Bool) (tau : Nat) : Nat → Nat → List Nat → RunResult
  | 0, d, acc => ⟨acc.reverse, d, finalWrite tau d⟩
  | remaining + 1, d, acc =>
    if obsStopped tau d then ⟨acc.reverse, d, .stopped⟩
    else if work d then processGo work tau remaining (d + 1) (d :: acc)
    else ⟨(d :: acc).reverse, d + 1, finalWrite tau (d + 1)⟩

/-- `SiteProcessor.process`: seed phase (not a depth level of the loop),
post-seed stop check, then the depth loop from 1, then export and the
guarded final status write. -/
def processModel (work : Nat → Bool) (tau maxDepth : Nat) : RunResult :=
  if obsStopped tau 0 then ⟨[], 0, .stopped⟩
  else processGo work tau maxDepth 1 []

/-! ## Concrete instances used by witnesses and counterexamples -/

/-- An empty registry with no filters. -/
def regEmpty : RegState := ⟨[], 0, 0, 0, []⟩

/-- An empty registry whose `SiteFilter` cache holds the pattern
`"bad"`. -/
def regBad : RegState := ⟨[], 0, 0, 0, ["bad".data]⟩

/-- Registry state after seeding `http://a.com/p` at depth 5 with root
`http://r1.com`. -/
def regDeep : RegState :=
  (addLink regEmpty "http://a.com/p".data "page".data none 5 none
    (some "http://r1.com".data)).2

/-- Re-insertion of the same URL at the strictly smaller depth 2, with a
new parent and a different root URL. -/
def regShallow : RegState :=
  (addLink regDeep "http://a.com/p".data "page".data (some 9) 2 none
    (some "http://r2.com".data)).2

/-- A depth-0 row `A`. -/
def rowA : LinkRec :=
  ⟨1, "http://a.com".data, "page".data, none, 0, "A".data,
   some "http://a.com".data, true, none⟩

/-- A depth-1 row `B` with parent `A`. -/
def rowB : LinkRec :=
  ⟨2, "http://a.com/b".data, "page".data, some 1, 1, "B".data,
   some "http://a.com".data, false, none⟩

/-- A depth-1 row `C` with parent `A`. -/
def rowC : LinkRec :=
  ⟨3, "http://a.com/c".data, "page".data, some 1, 1, "C".data,
   some "http://a.com".data, false, none⟩

/-- A depth-1 row whose parent id resolves to no exported row. -/
def rowOrphan : LinkRec :=
  ⟨4, "http://x.com".data, "page".data, some 99, 1, "X".data,
   some "http://a.com".data, false, none⟩

/-- An unprocessed depth-2 row. -/
def rowDepth2 : LinkRec :=
  ⟨7, "http://n.com".data, "page".data, none, 2, "n".data, none, false, none⟩

/-! ## Spec-side definitions used for refinement comparisons -/

/-- The path transform in the words of the (amended) specification:
strip ALL trailing `'/'` characters from the path unless the path is
empty or exactly `'/'`.  Stated independently of `rstripChar` so the
normaliser theorem compares the code's path handling against the spec's
wording. -/
def stripAllTrailing : Chars → Chars
  | [] => []
  | c :: rest =>
    match stripAllTrailing rest with
    | [] => if c = '/' then [] else [c]
    | r => c :: r

/-- The spec-side path transform of the normaliser. -/
def specPathTransform (p : Chars) : Chars :=
  if p = [] ∨ p = "/".data then p else stripAllTrailing p

/-- Whether the PyPDF2 pass of `_parse_pdf` forces the pdfminer
fallback: it raised, or it extracted under 100 stripped characters. -/
def pdfNeedsFallback : PdfPrimary → Bool
  | .ok t _ => (pyStrip t).length < 100
  | .err _ => true

/-- The extensions `DocumentParser.parse` dispatches on. -/
def supportedDocExts : List Chars :=
  [".pdf".data, ".docx".data, ".doc".data, ".xlsx".data, ".xls".data]

/-! # Theorems -/

/-! ## List and character helper lemmas -/

theorem lowerChar_eq_dot {c : Char} (h : lowerChar c = '.') : c = '.' := by
  unfold lowerChar at h
  split at h <;> first | exact absurd h (by decide) | exact h

theorem lowerChar_dot : lowerChar '.' = '.' := by decide

theorem stripAllTrailing_eq_rstrip (l : Chars) :
    stripAllTrailing l = rstripChar '/' l := by
  induction l with
  | nil => rfl
  | cons c rest ih =>
    simp only [stripAllTrailing]
    unfold rstripChar
    rw [List.reverse_cons, List.dropWhile_append]
    rcases hd : rest.reverse.dropWhile (fun x => decide (x = '/')) with _ | ⟨y, ys⟩
    · have hres : stripAllTrailing rest = [] := by
        rw [ih]; unfold rstripChar; rw [hd]; rfl
      rw [hres]
      by_cases hc : c = '/' <;> simp [hc, List.dropWhile]
    · have hres : stripAllTrailing rest = (y :: ys).reverse := by
        rw [ih]; unfold rstripChar; rw [hd]
      obtain ⟨z, zs, hzz⟩ := List.exists_cons_of_ne_nil
        (show (y :: ys).reverse ≠ [] by simp)
      rw [hres, hzz]
      simp only [List.isEmpty_cons, if_neg (by simp : ¬ (false = true))]
      rw [List.reverse_append, List.reverse_cons]
      simp [← hzz]

theorem endsWith_false_rstrip {p : Chars} (h : endsWith p "/".data = false) :
    rstripChar '/' p = p := by
  unfold rstripChar
  rcases hp : p.reverse with _ | ⟨c, t⟩
  · simpa using (congrArg List.reverse hp).symm
  · have hc : c ≠ '/' := by
      intro hcc
      have hsuf : "/".data <:+ p := by
        refine ⟨t.reverse, ?_⟩
        have := congrArg List.reverse hp
        simpa [hcc] using this.symm
      simp [endsWith, hsuf] at h
    rw [List.dropWhile_cons_of_neg (by simpa using hc)]
    have := congrArg List.reverse hp
    simpa using this.symm

theorem splitChar_ne_nil (c : Char) (l : Chars) : splitChar c l ≠ [] := by
  cases l with
  | nil => simp [splitChar]
  | cons x rest =>
    simp only [splitChar]
    rcases h : splitChar c rest with _ | ⟨s, ss⟩
    · simp
    · by_cases hx : x = c <;> simp [hx]

theorem splitChar_not_mem {c : Char} {l : Chars} (h : c ∉ l) : splitChar c l = [l] := by
  induction l with
  | nil => rfl
  | cons x rest ih =>
    have hx : x ≠ c := fun he => h (he ▸ List.mem_cons_self x rest)
    have hr : c ∉ rest := fun hm => h (List.mem_cons_of_mem x hm)
    simp only [splitChar, ih hr]
    simp [hx]

theorem splitChar_length_two {c : Char} {l : Chars} (h : c ∈ l) :
    2 ≤ (splitChar c l).length := by
  induction l with
  | nil => simp at h
  | cons x rest ih =>
    simp only [splitChar]
    rcases hr : splitChar c rest with _ | ⟨s, ss⟩
    · exact absurd hr (splitChar_ne_nil c rest)
    · by_cases hx : x = c
      · simp [hx]
      · have hcr : c ∈ rest := by
          rcases List.mem_cons.mp h with he | hm
          · exact absurd he.symm hx
          · exact hm
        have h2 := ih hcr
        rw [hr] at h2
        simp only [List.length_cons] at h2 ⊢
        simp [hx]
        omega

theorem getLastD_splitChar {c : Char} (xs : Chars) {ys : Chars} (h : c ∉ ys) :
    (splitChar c (xs ++ c :: ys)).getLastD [] = ys := by
  induction xs with
  | nil =>
    simp only [List.nil_append, splitChar]
    rw [splitChar_not_mem h]
    simp
  | cons x xs ih =>
    simp only [List.cons_append, splitChar]
    rcases hr : splitChar c (xs ++ c :: ys) with _ | ⟨s, ss⟩
    · exact absurd hr (splitChar_ne_nil _ _)
    · show (if x = c then [] :: s :: ss else (x :: s) :: ss).getLastD [] = ys
      by_cases hx : x = c
      · rw [if_pos hx]
        have hys : (s :: ss).getLastD [] = ys := by rw [← hr]; exact ih
        simpa [List.getLastD_eq_getLast?] using hys
      · rw [if_neg hx]
        have hlen : 2 ≤ (splitChar c (xs ++ c :: ys)).length :=
          splitChar_length_two (by simp)
        rw [hr] at hlen
        rcases ss with _ | ⟨s2, ss2⟩
        · simp at hlen
        · have hys : (s :: s2 :: ss2).getLastD [] = ys := by rw [← hr]; exact ih
          simpa [List.getLastD_eq_getLast?] using hys

/-! ## Claim C5: the URL normaliser -/

/-- The normaliser's path handling agrees with the spec-side transform
that strips all trailing slashes. -/
theorem codePath_eq_specPath (p : Chars) :
    (if p ≠ [] ∧ p ≠ "/".data ∧ endsWith p "/".data then rstripChar '/' p else p) =
    specPathTransform p := by
  unfold specPathTransform
  by_cases h1 : p = []
  · subst h1
    simp
  · by_cases h2 : p = "/".data
    · subst h2
      rw [if_neg (fun hcon => hcon.2.1 rfl), if_pos (Or.inr rfl)]
    · rcases h3 : endsWith p "/".data with _ | _
      · rw [if_neg (by simp [h3]), if_neg (by simp [h1, h2]),
          stripAllTrailing_eq_rstrip, endsWith_false_rstrip h3]
      · rw [if_pos ⟨h1, h2, rfl⟩, if_neg (by simp [h1, h2]),
          stripAllTrailing_eq_rstrip]

/-- Claim C5 (amended): for every URL, `_normalize_url` lower-cases the
scheme and the netloc, removes the fragment, strips ALL trailing `'/'`
characters from the path (not just a single one) unless the path is
empty or exactly `'/'`, and leaves params and query untouched; in
particular `normalize("HTTP://Example.com/a/") = "http://example.com/a"`
and `normalize("https://x.com/") = "https://x.com/"`. -/
theorem normalizeUrl_spec :
    (∀ u : Chars, normalizeUrl u =
      if u = [] then [] else
        urlunparseM ⟨lowerS (urlparseM u []).scheme, lowerS (urlparseM u []).netloc,
          specPathTransform (urlparseM u []).path, (urlparseM u []).params,
          (urlparseM u []).query, []⟩) ∧
    normalizeUrl "HTTP://Example.com/a/".data = "http://example.com/a".data ∧
    normalizeUrl "https://x.com/".data = "https://x.com/".data := by
  refine ⟨fun u => ?_, by decide, by decide⟩
  by_cases hu : u = []
  · simp [normalizeUrl, hu]
  · simp only [normalizeUrl, if_neg hu]
    rw [codePath_eq_specPath]

/-- Claim C5 counterexample: the claim predicts that a single trailing
slash is stripped, so `"http://x.com/a//"` would normalise to
`"http://x.com/a/"`; the code's `rstrip('/')` strips both. -/
theorem normalizeUrl_double_slash :
    normalizeUrl "http://x.com/a//".data = "http://x.com/a".data ∧
    normalizeUrl "http://x.com/a//".data ≠ "http://x.com/a/".data := by
  constructor <;> decide

/-! ## Claim C10: agreement of the two kind classifiers -/

theorem splitLast_of_lower_suffix {url ext : Chars} (hdot : '.' ∉ ext)
    (h : ('.' :: ext) <:+ lowerS url) :
    ∃ tail : Chars, lowerS tail = ext ∧
      (splitChar '.' url).getLastD [] = tail := by
  obtain ⟨pre, hpre⟩ := h
  obtain ⟨u1, u2, hu, h1, h2⟩ := List.append_eq_map_iff.mp hpre
  rcases u2 with _ | ⟨a, rest⟩
  · simp at h2
  · simp only [List.map_cons, List.cons.injEq] at h2
    obtain ⟨ha, hrest⟩ := h2
    have ha2 : a = '.' := lowerChar_eq_dot ha
    subst ha2
    have hnd : '.' ∉ rest := by
      intro hm
      have : lowerChar '.' ∈ rest.map lowerChar := List.mem_map_of_mem lowerChar hm
      rw [lowerChar_dot, hrest] at this
      exact hdot this
    exact ⟨rest, hrest, by rw [hu]; exact getLastD_splitChar u1 hnd⟩

theorem leDet_eq_of_suffix {url ext : Chars} (hu : url ≠ [])
    (hdot : '.' ∉ ext) (hq : beforeFirst '?' ext = ext)
    (hsuf : endsWith (lowerS url) ('.' :: ext) = true) :
    leDetermineLinkType url =
      (match documentExtensions.find? (fun p => p.1 = ext) with
       | some p => p.2
       | none => "page".data) := by
  obtain ⟨tail, hlow, hsplit⟩ :=
    splitLast_of_lower_suffix hdot (of_decide_eq_true hsuf)
  unfold leDetermineLinkType
  rw [if_neg hu, hsplit, hlow, hq]

/-- Claim C10 (amended): the two kind classifiers agree whenever the
scheduler's suffix-based `_determine_link_type` assigns a document kind
(pdf, docx or xlsx); they can disagree only when the scheduler answers
`page`, since the extractor's extension-segment classifier additionally
recognises extensions trailed by a query string and the pptx/ppt
extensions. -/
theorem kindClassifiersAgree (url : Chars)
    (h : spDetermineLinkType url ≠ "page".data) :
    leDetermineLinkType url = spDetermineLinkType url := by
  by_cases hu : url = []
  · exact absurd (by simp [spDetermineLinkType, hu]) h
  unfold spDetermineLinkType at h ⊢
  rw [if_neg hu] at h ⊢
  by_cases h1 : endsWith (lowerS url) ".pdf".data = true
  · rw [if_pos h1]
    rw [leDet_eq_of_suffix hu (by decide) (by decide) h1]
    decide
  · rw [if_neg h1] at h ⊢
    by_cases h2 : (endsWith (lowerS url) ".docx".data ||
        endsWith (lowerS url) ".doc".data) = true
    · rw [if_pos h2]
      have h2or : endsWith (lowerS url) ".docx".data = true ∨
          endsWith (lowerS url) ".doc".data = true := by simpa using h2
      rcases h2or with ha | hb
      · rw [leDet_eq_of_suffix hu (by decide) (by decide) ha]
        decide
      · rw [leDet_eq_of_suffix hu (by decide) (by decide) hb]
        decide
    · rw [if_neg h2] at h ⊢
      by_cases h3 : (endsWith (lowerS url) ".xlsx".data ||
          endsWith (lowerS url) ".xls".data) = true
      · rw [if_pos h3]
        have h3or : endsWith (lowerS url) ".xlsx".data = true ∨
            endsWith (lowerS url) ".xls".data = true := by simpa using h3
        rcases h3or with ha | hb
        · rw [leDet_eq_of_suffix hu (by decide) (by decide) ha]
          decide
        · rw [leDet_eq_of_suffix hu (by decide) (by decide) hb]
          decide
      · rw [if_neg h3] at h
        exact absurd rfl h

/-- Witness for C10: on `http://x.com/a.PDF` the scheduler answers
`pdf` and the extractor agrees. -/
theorem kindClassifiersAgree_witness :
    leDetermineLinkType "http://x.com/a.PDF".data =
      spDetermineLinkType "http://x.com/a.PDF".data :=
  kindClassifiersAgree "http://x.com/a.PDF".data (by decide)

/-- Claim C10 counterexample: on `http://example.com/a.pdf?x=1` the
extractor's classifier answers `pdf` while the scheduler's answers
`page`, so the two classifiers do NOT agree on every URL. -/
theorem kindClassifiersDisagree :
    leDetermineLinkType "http://example.com/a.pdf?x=1".data = "pdf".data ∧
    spDetermineLinkType "http://example.com/a.pdf?x=1".data = "page".data ∧
    leDetermineLinkType "http://example.com/a.pdf?x=1".data ≠
      spDetermineLinkType "http://example.com/a.pdf?x=1".data := by
  exact ⟨by decide, by decide, by decide⟩

/-! ## Claim C9: the guards of `add_link` -/

/-- Claim C9: `add_link` called with an empty/None URL, or with a kind
outside {page, pdf, docx, xlsx, other, broken}, returns `None` and
leaves the registry entirely unchanged — no row is created or modified
and `total_links` is not incremented. -/
theorem addLink_guard (st : RegState) (url linkType : Chars) (parentId : Option Nat)
    (depth : Nat) (linkText startingUrl : Option Chars)
    (h : url = [] ∨ linkType ∉ validTypes) :
    addLink st url linkType parentId depth linkText startingUrl = (none, st) := by
  unfold addLink
  by_cases hu : url = []
  · rw [if_pos hu]
  · rcases h with h | h
    · exact absurd h hu
    · rw [if_neg hu]
      by_cases hf : depth ≠ 0 ∧ shouldFilterUrl st.filters url = true
      · rw [if_pos hf]
      · rw [if_neg hf, if_pos h]

/-- Witness for C9: an invalid kind is rejected without touching the
store. -/
theorem addLink_guard_witness :
    addLink regEmpty "http://a.com".data "weird".data none 3 none none =
      (none, regEmpty) :=
  addLink_guard regEmpty "http://a.com".data "weird".data none 3 none none
    (Or.inr (by decide))

/-! ## Claim C2: depth-0 insertions and FilterRules -/

/-- Claim C2 (amended): via `add_link`, depth-0 insertions bypass
FilterRules entirely — even a seed whose canonical URL matches a
FilterRule is stored and an id returned — while any URL at depth > 0
matching a FilterRule is rejected with `None` and the registry left
unchanged.  The batch `add_links`, however, pre-filters its items
REGARDLESS of depth, so a depth-0 seed matching a FilterRule is dropped
by the batch path (see the counterexample). -/
theorem addLink_depth0_bypasses_filters :
    (∀ (st : RegState) (url linkType : Chars) (parentId : Option Nat)
       (linkText startingUrl : Option Chars),
       url ≠ [] → linkType ∈ validTypes →
       (addLink st url linkType parentId 0 linkText startingUrl).1.isSome = true) ∧
    (∀ (st : RegState) (url linkType : Chars) (parentId : Option Nat) (depth : Nat)
       (linkText startingUrl : Option Chars),
       depth ≠ 0 → shouldFilterUrl st.filters url = true →
       addLink st url linkType parentId depth linkText startingUrl = (none, st)) := by
  constructor
  · intro st url linkType parentId linkText startingUrl hu ht
    simp only [addLink]
    rw [if_neg hu]
    rw [if_neg (show ¬ ((0 : Nat) ≠ 0 ∧ shouldFilterUrl st.filters url = true) from
      fun hc => hc.1 rfl)]
    rw [if_neg (show ¬ linkType ∉ validTypes from fun hn => hn ht)]
    rw [if_pos trivial]
    split
    · split <;> simp
    · simp [createLink]
  · intro st url linkType parentId depth linkText startingUrl hd hf
    simp only [addLink]
    by_cases hu : url = []
    · rw [if_pos hu]
    · rw [if_neg hu, if_pos ⟨hd, hf⟩]

/-- Witness for C2: a seed whose URL contains the filter pattern `bad`
is still inserted at depth 0, and the same URL is rejected at depth
1. -/
theorem addLink_depth0_bypasses_filters_witness :
    (addLink regBad "http://bad.com".data "page".data none 0 none none).1.isSome
      = true ∧
    addLink regBad "http://bad.com".data "page".data none 1 none none =
      (none, regBad) :=
  ⟨addLink_depth0_bypasses_filters.1 regBad "http://bad.com".data "page".data
      none none none (by decide) (by decide),
   addLink_depth0_bypasses_filters.2 regBad "http://bad.com".data "page".data
      none 1 none none (by decide) (by decide)⟩

/-- Claim C2 counterexample: the claim says a seed matching a FilterRule
is stored when inserted at depth 0 via the batch `add_links` as well;
in fact `add_links` pre-filters regardless of depth, so the depth-0
seed `http://bad.com` is dropped and the registry is left unchanged. -/
theorem addLinks_filters_depth0_seed :
    addLinks regBad [⟨"http://bad.com".data, [], "page".data⟩] none 0 none =
      (0, regBad) := by
  decide

/-! ## Claim C1: shortest-path-wins insert-or-update -/

/-- Claim C1 (amended): re-adding a URL already stored for the job at a
non-zero depth (the URL not matching a FilterRule): if the new depth is
strictly smaller than the stored depth, the row is rewritten in place —
depth and parent always, rootUrl (`starting_url`) only when the stored
one was missing — and the existing identity is returned; if the new
depth is ≥ the stored depth the row is returned unchanged; in neither
case is a duplicate row created or `total_links` incremented. -/
theorem addLink_shortest_path (st : RegState) (url linkType : Chars)
    (parentId : Option Nat) (depth : Nat) (linkText startingUrl : Option Chars)
    (l : LinkRec)
    (hd : depth ≠ 0) (hu : url ≠ [])
    (hf : shouldFilterUrl st.filters url = false)
    (ht : linkType ∈ validTypes)
    (hfind : st.links.find? (fun x => x.url = normalizeUrl url) = some l) :
    (addLink st url linkType parentId depth linkText startingUrl).1 = some l.id ∧
    (addLink st url linkType parentId depth linkText startingUrl).2.totalLinks
      = st.totalLinks ∧
    (addLink st url linkType parentId depth linkText startingUrl).2.links.length
      = st.links.length ∧
    (¬ depth < l.depth →
      (addLink st url linkType parentId depth linkText startingUrl).2 = st) ∧
    (depth < l.depth →
      (addLink st url linkType parentId depth linkText startingUrl).2 =
        { st with links := updateLink st.links l.id (fun x =>
            { x with
                depth := depth
                parentId := parentId
                startingUrl :=
                  if ¬ isFalsyOpt (normStartOpt startingUrl) ∧ isFalsyOpt x.startingUrl
                  then normStartOpt startingUrl else x.startingUrl }) }) := by
  simp only [addLink]
  rw [if_neg hu]
  rw [if_neg (show ¬ (depth ≠ 0 ∧ shouldFilterUrl st.filters url = true) from
    fun hc => by rw [hf] at hc; exact absurd hc.2 (by decide))]
  rw [if_neg (show ¬ linkType ∉ validTypes from fun hn => hn ht)]
  rw [if_neg hd, hfind]
  dsimp only
  by_cases hlt : depth < l.depth
  · rw [if_pos hlt]
    refine ⟨rfl, rfl, ?_, fun hc => absurd hlt hc, fun _ => rfl⟩
    simp [updateLink]
  · rw [if_neg hlt]
    exact ⟨rfl, rfl, rfl, fun _ => rfl, fun hc => absurd hc hlt⟩

/-- Witness for C1: re-adding the depth-5 row of `regDeep` at depth 2
returns the stored id. -/
theorem addLink_shortest_path_witness :
    (addLink regDeep "http://a.com/p".data "page".data (some 9) 2 none
      (some "http://r2.com".data)).1 = some 0 :=
  (addLink_shortest_path regDeep "http://a.com/p".data "page".data (some 9) 2
    none (some "http://r2.com".data)
    ⟨0, "http://a.com/p".data, "page".data, none, 5, "http://a.com/p".data,
     some "http://r1.com".data, false, none⟩
    (by decide) (by decide) (by decide) (by decide) (by decide)).1

/-- Claim C1 counterexample: the claim says depth, parent AND rootUrl
are all rewritten on a shortest-path update.  Re-adding the URL of
`regDeep` (stored at depth 5 with rootUrl `http://r1.com`) at depth 2
with parent 9 and rootUrl `http://r2.com` updates depth and parent but
leaves rootUrl at `http://r1.com`. -/
theorem addLink_rootUrl_not_rewritten :
    regShallow.links.map (fun r => (r.depth, r.parentId, r.startingUrl)) =
      [(2, some 9, some "http://r1.com".data)] ∧
    (some "http://r1.com".data : Option Chars) ≠ some "http://r2.com".data := by
  exact ⟨by decide, by decide⟩

/-! ## Claim C3: the early-starvation rule of the scheduler -/

/-- Claim C3 (amended): for a depth level with zero unprocessed nodes,
`_process_depth_level` continues (returns True) iff nodes exist at that
depth (necessarily all processed), the depth is below `max_depth`, and
nodes exist at depth+1; in every other such case — in particular
whenever NO node at all exists at the depth, even if nodes exist at
depth+1 — it terminates the crawl (returns False). -/
theorem processDepthLevel_starvation (links : List LinkRec) (depth maxDepth pc : Nat)
    (hU : links.filter (fun l => l.depth = depth && ¬ l.processed) = []) :
    (processDepthLevel links depth maxDepth pc = true ↔
      ((links.filter (fun l => l.depth = depth)).length ≠ 0 ∧ depth < maxDepth ∧
        links.any (fun l => l.depth = depth + 1) = true)) := by
  unfold processDepthLevel
  rw [hU]
  simp only [List.isEmpty_nil, if_true]
  split_ifs with h1 h2
  · exact ⟨fun h => absurd h (by decide), fun hr => absurd h1.1 hr.1⟩
  · exact ⟨fun _ => ⟨fun h0 => h1 ⟨h0, h2.1⟩, h2.1, h2.2⟩, fun _ => rfl⟩
  · exact ⟨fun h => absurd h (by decide), fun hr => absurd ⟨hr.2.1, hr.2.2⟩ h2⟩

/-- Witness for C3: one processed depth-0 row, querying depth 1 with
maxDepth 3. -/
theorem processDepthLevel_starvation_witness :
    (processDepthLevel [rowA] 1 3 0 = true ↔
      (([rowA].filter (fun l => l.depth = 1)).length ≠ 0 ∧ 1 < 3 ∧
        [rowA].any (fun l => l.depth = 1 + 1) = true)) :=
  processDepthLevel_starvation [rowA] 1 3 0 (by decide)

/-- Claim C3 counterexample: depth 1 has zero nodes, a node exists at
depth 2 and maxDepth is 3; the claim says the scheduler continues to the
next depth, but `_process_depth_level` returns False (terminate) without
consulting depth 2. -/
theorem processDepthLevel_stops_despite_next_depth :
    ([rowDepth2].any (fun l => l.depth = 1 + 1)) = true ∧
    processDepthLevel [rowDepth2] 1 3 0 = false := by
  exact ⟨by decide, by decide⟩

/-! ## Claim C4: hierarchical export and the orphan fallback -/

/-- Claim C4 (amended): `_build_hierarchical_structure` rebuilds the
parent-to-children tree from parent pointers; its roots are exactly the
depth-0 nodes of the exported set, and ONLY when the set contains no
depth-0 node at all are the nodes without a resolvable parent exported
as roots instead (orphan fallback); nodes with an unresolvable parent
are otherwise dropped.  The concrete shape A(depth 0), B(parent A),
C(parent A) exports as one root A with children [B, C]. -/
theorem buildHierarchy_roots :
    (∀ links : List LinkRec,
      (buildHierarchy links).map ExportNode.url =
        (if (links.filter (fun l => l.depth = 0)).isEmpty
         then (links.filter (isOrphan links)).map (fun l => l.url)
         else (links.filter (fun l => l.depth = 0)).map (fun l => l.url))) ∧
    buildHierarchy [rowA, rowB, rowC] =
      [.mk "http://a.com".data "A".data "page".data 0 true none
        [.mk "http://a.com/b".data "B".data "page".data 1 false none [],
         .mk "http://a.com/c".data "C".data "page".data 1 false none []]] := by
  constructor
  · intro links
    have hb : ∀ (fuel : Nat) (l : LinkRec),
        ExportNode.url (buildNode links fuel l) = l.url := by
      intro fuel l
      cases fuel <;> rfl
    simp only [buildHierarchy]
    split_ifs with h
    · rw [List.map_map]
      exact List.map_congr_left (fun l _ => hb _ l)
    · rw [List.map_map]
      exact List.map_congr_left (fun l _ => hb _ l)
  · rfl

/-- Claim C4 counterexample: exporting {A(depth 0), X(unresolvable
parent)}: the claim says X is treated as an additional root, but the
orphan fallback only fires when no depth-0 node exists, so X is dropped
from the export entirely. -/
theorem buildHierarchy_drops_orphan :
    buildHierarchy [rowA, rowOrphan] =
      [.mk "http://a.com".data "A".data "page".data 0 true none []] ∧
    (buildHierarchy [rowA, rowOrphan]).map ExportNode.url =
      ["http://a.com".data] := by
  exact ⟨rfl, rfl⟩

/-! ## Claim C7: total degradation of the document parser -/

/-- Claim C7: `DocumentParser.parse` is total over every modelled
failure channel — no exception escapes its boundary — and a missing
file, an unsupported extension, or failure of the underlying extractors
(for PDF: PyPDF2 raising or under-extracting AND pdfminer raising; for
Word/Excel: the extraction raising) yields exactly
`{text: "", links: []}`. -/
theorem docParse_degrades (env : DocEnv) (filePath : Chars)
    (h : env.fileExists = false ∨
         lowerS (splitextExt filePath) ∉ supportedDocExts ∨
         (lowerS (splitextExt filePath) = ".pdf".data ∧ env.pdfMiner = none ∧
           pdfNeedsFallback env.pdfPrimary = true) ∨
         ((lowerS (splitextExt filePath) = ".docx".data ∨
           lowerS (splitextExt filePath) = ".doc".data) ∧ env.docxInner = none) ∨
         ((lowerS (splitextExt filePath) = ".xlsx".data ∨
           lowerS (splitextExt filePath) = ".xls".data) ∧ env.xlsxInner = none)) :
    docParse env filePath = ⟨[], []⟩ := by
  unfold docParse
  by_cases he : env.fileExists = true
  · rw [if_neg (by simp [he])]
    rcases h with h | h | h | h | h
    · rw [he] at h
      exact absurd h (by decide)
    · rw [if_neg (fun hc => h (by rw [hc]; decide))]
      rw [if_neg (fun hc => by
        rcases hc with hc | hc <;> exact h (by rw [hc]; decide))]
      rw [if_neg (fun hc => by
        rcases hc with hc | hc <;> exact h (by rw [hc]; decide))]
    · rw [if_pos h.1]
      unfold parsePdf
      rcases hp : env.pdfPrimary with ⟨t, a⟩ | a
      · dsimp only
        have hfb : pdfNeedsFallback (PdfPrimary.ok t a) = true := by
          rw [← hp]
          exact h.2.2
        unfold pdfNeedsFallback at hfb
        rw [if_pos (of_decide_eq_true hfb), h.2.1]
      · dsimp only
        rw [h.2.1]
    · rw [if_neg (fun hc => by
        rcases h.1 with h1 | h1 <;> rw [h1] at hc <;> exact absurd hc (by decide))]
      rw [if_pos h.1]
      unfold parseDocx
      rw [h.2]
    · have hne : ∀ e : Chars, lowerS (splitextExt filePath) = e →
          (e = ".xlsx".data ∨ e = ".xls".data) → True := fun _ _ _ => trivial
      rw [if_neg (fun hc => by
        rcases h.1 with h1 | h1 <;> rw [h1] at hc <;> exact absurd hc (by decide))]
      rw [if_neg (fun hc => by
        rcases hc with hc | hc <;> rcases h.1 with h1 | h1 <;>
          rw [h1] at hc <;> exact absurd hc (by decide))]
      rw [if_pos h.1]
      unfold parseXlsx
      rw [h.2]
  · rw [if_pos he]

/-- Witness for C7: a missing file degrades to the empty result. -/
theorem docParse_degrades_witness :
    docParse ⟨false, .err [], none, none, none, fun _ => []⟩ "x.pdf".data =
      ⟨[], []⟩ :=
  docParse_degrades ⟨false, .err [], none, none, none, fun _ => []⟩ "x.pdf".data
    (Or.inl rfl)

/-! ## Claim C8: stop semantics of the scheduler -/

theorem processGo_spec (work : Nat → Bool) (tau : Nat) (htau : 1 ≤ tau) :
    ∀ (remaining d : Nat) (acc : List Nat),
      (∀ x ∈ acc, x + 1 < tau) →
      (∀ x ∈ (processGo work tau remaining d acc).depthsStarted, x + 1 < tau) ∧
      (tau ≤ (processGo work tau remaining d acc).finalRefreshIdx + 1 →
        (processGo work tau remaining d acc).finalStatus = .stopped) := by
  intro remaining
  induction remaining with
  | zero =>
    intro d acc hacc
    simp only [processGo]
    constructor
    · intro x hx
      rw [List.mem_reverse] at hx
      exact hacc x hx
    · intro hle
      unfold finalWrite obsStopped
      rw [if_pos (by simp only [decide_eq_true_eq]; exact ⟨htau, hle⟩)]
  | succ rem ih =>
    intro d acc hacc
    simp only [processGo]
    by_cases hobs : obsStopped tau d = true
    · rw [if_pos hobs]
      refine ⟨fun x hx => ?_, fun _ => rfl⟩
      rw [List.mem_reverse] at hx
      exact hacc x hx
    · rw [if_neg hobs]
      have hd : d + 1 < tau := by
        unfold obsStopped at hobs
        simp only [decide_eq_true_eq, not_and, not_le] at hobs
        exact hobs htau
      by_cases hw : work d = true
      · rw [if_pos hw]
        refine ih (d + 1) (d :: acc) ?_
        intro x hx
        rcases List.mem_cons.mp hx with rfl | hx2
        · exact hd
        · exact hacc x hx2
      · rw [if_neg hw]
        constructor
        · intro x hx
          rw [List.mem_reverse] at hx
          rcases List.mem_cons.mp hx with rfl | hx2
          · exact hd
          · exact hacc x hx2
        · intro hle
          unfold finalWrite obsStopped
          rw [if_pos (by simp only [decide_eq_true_eq]; exact ⟨htau, hle⟩)]

/-- Claim C8 (amended): the stop request is observed at the post-seed
and per-depth checkpoints (there is NO pre-seed checkpoint: a stop
requested before the scheduler's initial `status='processing'` write is
overwritten — see the counterexample).  For a stop requested after that
initial write (`1 ≤ tau`): every depth level that begins passed its
checkpoint before the request (`d + 1 < tau`), so no further depth level
begins once the stop is set, the in-flight depth running to completion;
and whenever the request precedes the final status read, the completion
path leaves the status `stopped`, never overwriting it with
`completed`. -/
theorem processModel_stop (work : Nat → Bool) (tau maxDepth : Nat) (htau : 1 ≤ tau) :
    (∀ d ∈ (processModel work tau maxDepth).depthsStarted, d + 1 < tau) ∧
    (tau ≤ (processModel work tau maxDepth).finalRefreshIdx + 1 →
      (processModel work tau maxDepth).finalStatus = .stopped) := by
  unfold processModel
  by_cases h0 : obsStopped tau 0 = true
  · rw [if_pos h0]
    exact ⟨fun d hd => absurd hd (by simp), fun _ => rfl⟩
  · rw [if_neg h0]
    exact processGo_spec work tau htau maxDepth 1 [] (fun x hx => absurd hx (by simp))

/-- Witness for C8: a stop requested between the initial write and the
post-seed checkpoint halts the job before depth 1 with status
`stopped`. -/
theorem processModel_stop_witness :
    (processModel (fun _ => true) 2 3).finalStatus = JStatus.stopped :=
  (processModel_stop (fun _ => true) 2 3 (by decide)).2 (by decide)

/-- Claim C8 counterexample: a stop requested before the scheduler's
initial `status='processing'` write (tau = 0) is clobbered by that
write: both depth levels still begin and the final status is
`completed`, contradicting the claim that once the status is externally
set to `stopped` no further depth level begins and the final status
stays `stopped` (and showing the first checkpoint is post-seed, not
pre-seed). -/
theorem processModel_stop_clobbered :
    processModel (fun _ => true) 0 2 = ⟨[1, 2], 3, JStatus.completed⟩ := by
  decide

/-! ## Claim C6: noise exclusion in the link classifier -/

theorem not_prefix_of_head_ne {a b : Char} {l m : Chars} (h : a ≠ b) :
    ¬ ((a :: l) <+: (b :: m)) :=
  fun hc => absurd (List.cons_prefix_cons.mp hc).1 h

theorem scanScheme_append_colon (pre s : Chars)
    (h : ∀ c ∈ pre, ¬ c = ':' ∧ isSchemeChar c = true) :
    scanScheme (pre ++ ':' :: s) = some (pre, s) := by
  induction pre with
  | nil => simp [scanScheme]
  | cons c rest ih =>
    have hc := h c (List.mem_cons_self _ _)
    simp only [List.cons_append, scanScheme]
    rw [if_neg hc.1, if_pos hc.2]
    rw [show rest.append (':' :: s) = rest ++ ':' :: s from rfl]
    rw [ih (fun x hx => h x (List.mem_cons_of_mem _ hx))]
    rfl

theorem splitScheme_append_colon (c0 : Char) (pre0 s : Chars)
    (hhead : isAlphaA c0 = true)
    (h : ∀ c ∈ (c0 :: pre0), ¬ c = ':' ∧ isSchemeChar c = true) :
    splitScheme ((c0 :: pre0) ++ ':' :: s) = some (lowerS (c0 :: pre0), s) := by
  show (if isAlphaA c0 = true
    then (scanScheme ((c0 :: pre0) ++ ':' :: s)).map (fun p => (lowerS p.1, p.2))
    else none) = some (lowerS (c0 :: pre0), s)
  rw [if_pos hhead, scanScheme_append_colon (c0 :: pre0) s h]
  rfl

theorem urlsplitM_scheme_lit (c0 : Char) (pre0 s d : Chars)
    (hhead : isAlphaA c0 = true)
    (hchars : ∀ c ∈ (c0 :: pre0), ¬ c = ':' ∧ isSchemeChar c = true)
    (hsafe : ∀ c ∈ (c0 :: pre0), ¬ isUnsafeUrlChar c = true) :
    (urlsplitM ((c0 :: pre0) ++ ':' :: s) d).scheme = lowerS (c0 :: pre0) := by
  have hfil : ((c0 :: pre0) ++ ':' :: s).filter (fun c => ¬ isUnsafeUrlChar c) =
      (c0 :: pre0) ++ ':' :: s.filter (fun c => ¬ isUnsafeUrlChar c) := by
    rw [List.filter_append]
    have h1 : (c0 :: pre0).filter (fun c => ¬ isUnsafeUrlChar c) = c0 :: pre0 :=
      List.filter_eq_self.mpr (fun c hc => by simpa using hsafe c hc)
    rw [h1, List.filter_cons]
    simp [isUnsafeUrlChar]
  simp only [urlsplitM, hfil,
    splitScheme_append_colon c0 pre0 _ hhead hchars]

theorem urlparseM_scheme_eq (url d : Chars) :
    (urlparseM url d).scheme = (urlsplitM url d).scheme := rfl

theorem urljoinM_foreign (base url : Chars) (hurl : url ≠ [])
    (hscheme : ∀ d, (urlparseM url d).scheme ∉ usesRelative) :
    urljoinM base url = url := by
  unfold urljoinM
  by_cases hb : base = []
  · rw [if_pos hb]
  · rw [if_neg hb, if_neg hurl, if_pos (Or.inr (hscheme _))]

theorem urlunparseM_cons_scheme (p : UrlParts) (h : p.scheme ≠ []) :
    ∃ t, urlunparseM p = p.scheme ++ ':' :: t := by
  simp only [urlunparseM, urlunsplitM]
  rw [if_pos h]
  split_ifs <;>
    first
      | exact ⟨_, rfl⟩
      | exact ⟨_, by simp only [List.append_assoc, List.cons_append]; rfl⟩

/-- The href families with a non-relative scheme survive
`_normalize_url` with that scheme still in front: `urljoin` returns such
URLs unchanged, and re-parsing keeps the scheme. -/
theorem extNormalize_foreign (base s : Chars) (c0 : Char) (pre0 : Chars)
    (hhead : isAlphaA c0 = true)
    (hchars : ∀ c ∈ (c0 :: pre0), ¬ c = ':' ∧ isSchemeChar c = true)
    (hsafe : ∀ c ∈ (c0 :: pre0), ¬ isUnsafeUrlChar c = true)
    (hrel : lowerS (c0 :: pre0) ∉ usesRelative)
    (hhash : c0 ≠ '#') (hjs : ¬ ("javascript:".data <+: ((c0 :: pre0) ++ ':' :: s))) :
    ∃ t, extNormalizeUrl base ((c0 :: pre0) ++ ':' :: s) =
      some (lowerS (c0 :: pre0) ++ ':' :: t) := by
  have hscheme : ∀ d, (urlparseM ((c0 :: pre0) ++ ':' :: s) d).scheme =
      lowerS (c0 :: pre0) := fun d => urlsplitM_scheme_lit c0 pre0 s d hhead hchars hsafe
  have hnoise : ¬ ((c0 :: pre0) ++ ':' :: s = [] ∨
      "#".data <+: ((c0 :: pre0) ++ ':' :: s) ∨
      "javascript:".data <+: ((c0 :: pre0) ++ ':' :: s)) := by
    rintro (hc | hc | hc)
    · simp at hc
    · exact not_prefix_of_head_ne (fun he => hhash he.symm) hc
    · exact hjs hc
  have habs : (if (urlparseM ((c0 :: pre0) ++ ':' :: s) []).netloc = []
      then urljoinM base ((c0 :: pre0) ++ ':' :: s)
      else (c0 :: pre0) ++ ':' :: s) = (c0 :: pre0) ++ ':' :: s := by
    split_ifs with hn
    · exact urljoinM_foreign base _ (by simp) (fun d => by rw [hscheme d]; exact hrel)
    · rfl
  simp only [extNormalizeUrl]
  rw [if_neg hnoise, habs]
  obtain ⟨t, ht⟩ := urlunparseM_cons_scheme
    ⟨(urlparseM ((c0 :: pre0) ++ ':' :: s) []).scheme,
     (urlparseM ((c0 :: pre0) ++ ':' :: s) []).netloc,
     (urlparseM ((c0 :: pre0) ++ ':' :: s) []).path,
     (urlparseM ((c0 :: pre0) ++ ':' :: s) []).params,
     (urlparseM ((c0 :: pre0) ++ ':' :: s) []).query, []⟩
    (show (urlparseM ((c0 :: pre0) ++ ':' :: s) []).scheme ≠ [] by
      rw [hscheme []]; simp [lowerS])
  refine ⟨t, ?_⟩
  rw [ht]
  show some ((urlparseM ((c0 :: pre0) ++ ':' :: s) []).scheme ++ ':' :: t) = _
  rw [hscheme []]

theorem splitChar_head_append (c : Char) (xs l : Chars) (h : c ∉ xs)
    (s : Chars) (ss : List Chars) (hsp : splitChar c l = s :: ss) :
    splitChar c (xs ++ l) = (xs ++ s) :: ss := by
  induction xs with
  | nil => simpa using hsp
  | cons x xs ih =>
    have hx : x ≠ c := fun he => h (he ▸ List.mem_cons_self x xs)
    have hxs : c ∉ xs := fun hm => h (List.mem_cons_of_mem x hm)
    simp only [List.cons_append, splitChar]
    rw [show xs.append l = xs ++ l from rfl, ih hxs]
    simp [hx]

theorem emailMatch_of_colon (pre t : Chars) (hat : '@' ∉ pre) (hcolon : ':' ∈ pre)
    (hmail : ¬ ("mailto:".data <+: (pre ++ t))) :
    emailMatch (pre ++ t) = false := by
  simp only [emailMatch]
  rw [if_neg hmail]
  obtain ⟨s0, ss0, hsp⟩ := List.exists_cons_of_ne_nil (splitChar_ne_nil '@' t)
  rw [splitChar_head_append '@' pre t hat s0 ss0 hsp]
  rcases ss0 with _ | ⟨r, rs⟩
  · rfl
  · rcases rs with _ | _
    · dsimp only
      have hall : (pre ++ s0).all isLocalChar = false := by
        rw [List.all_eq_false]
        exact ⟨':', List.mem_append_left _ hcolon, by decide⟩
      simp [hall]
    · rfl

theorem classify_none_of_normNone (base : Chars) (a : Anchor)
    (hn : extNormalizeUrl base a.href = none) :
    classifyAnchor base a = none := by
  unfold classifyAnchor
  rw [hn]

theorem classify_none_of_email (base : Chars) (a : Anchor) (u : Chars)
    (hn : extNormalizeUrl base a.href = some u) (he : isEmailLink u = true) :
    classifyAnchor base a = none := by
  unfold classifyAnchor
  rw [hn]
  dsimp only
  rw [if_pos he]

theorem classify_none_of_phone (base : Chars) (a : Anchor) (u : Chars)
    (hn : extNormalizeUrl base a.href = some u) (hemail : isEmailLink u = false)
    (hphone : isPhoneLink u = true) :
    classifyAnchor base a = none := by
  unfold classifyAnchor
  rw [hn]
  dsimp only
  rw [if_neg (by simp [hemail]), if_pos hphone]

theorem classify_noise (base : Chars) (a : Anchor) (s : Chars)
    (h : a.href = "mailto:".data ++ s ∨ a.href = "tel:".data ++ s ∨
         a.href = "#".data ++ s ∨ a.href = "javascript:".data ++ s) :
    classifyAnchor base a = none := by
  rcases h with h | h | h | h
  · obtain ⟨t, ht⟩ := extNormalize_foreign base s 'm' "ailto".data (by decide)
      (by decide) (by decide) (by decide) (by decide)
      (not_prefix_of_head_ne (by decide))
    refine classify_none_of_email base a ("mailto".data ++ ':' :: t) ?_ ?_
    · rw [h, show "mailto:".data ++ s = ('m' :: "ailto".data) ++ ':' :: s from rfl,
        ht]
      rfl
    · show isEmailLink ('m' :: 'a' :: 'i' :: 'l' :: 't' :: 'o' :: ':' :: t) = true
      unfold isEmailLink
      rw [if_neg (by simp), if_pos ⟨t, rfl⟩]
  · obtain ⟨t, ht⟩ := extNormalize_foreign base s 't' "el".data (by decide)
      (by decide) (by decide) (by decide) (by decide)
      (not_prefix_of_head_ne (by decide))
    refine classify_none_of_phone base a ("tel".data ++ ':' :: t) ?_ ?_ ?_
    · rw [h, show "tel:".data ++ s = ('t' :: "el".data) ++ ':' :: s from rfl, ht]
      rfl
    · show isEmailLink ('t' :: 'e' :: 'l' :: ':' :: t) = false
      unfold isEmailLink
      rw [if_neg (by simp), if_neg (not_prefix_of_head_ne (by decide))]
      exact emailMatch_of_colon "tel:".data t (by decide) (by decide)
        (not_prefix_of_head_ne (by decide))
    · show isPhoneLink ('t' :: 'e' :: 'l' :: ':' :: t) = true
      unfold isPhoneLink
      rw [if_neg (by simp), if_pos ⟨t, rfl⟩]
  · refine classify_none_of_normNone base a ?_
    rw [h]
    unfold extNormalizeUrl
    rw [if_pos (Or.inr (Or.inl ⟨s, rfl⟩))]
  · refine classify_none_of_normNone base a ?_
    rw [h]
    unfold extNormalizeUrl
    rw [if_pos (Or.inr (Or.inr ⟨s, rfl⟩))]

theorem classify_report (base : Chars) (a : Anchor)
    (h : a.href = "https://site.example/files/report.pdf".data) :
    classifyAnchor base a = some (.documents,
      ⟨"https://site.example/files/report.pdf".data,
       (if a.text = [] then "https://site.example/files/report.pdf".data
        else a.text), "pdf".data⟩) := by
  obtain ⟨href, text, n1, n2⟩ := a
  simp only at h
  subst h
  unfold classifyAnchor
  have h1 : extNormalizeUrl base "https://site.example/files/report.pdf".data =
      some "https://site.example/files/report.pdf".data := by
    simp only [extNormalizeUrl]
    rw [if_neg (by decide), if_neg (by decide)]
    decide
  rw [h1]
  dsimp only
  rw [if_neg (by decide), if_neg (by decide), if_pos (by decide),
    show leDetermineLinkType "https://site.example/files/report.pdf".data =
      "pdf".data from by decide]

theorem extractAux_append (b : Chars) (l1 l2 : List Anchor) (acc : Buckets) :
    extractAux b (l1 ++ l2) acc = extractAux b l2 (extractAux b l1 acc) := by
  induction l1 generalizing acc with
  | nil => rfl
  | cons a l ih =>
    simp only [List.cons_append, extractAux]
    exact ih _

theorem extractAux_skip (b : Chars) (a : Anchor) (l : List Anchor) (acc : Buckets)
    (h : classifyAnchor b a = none) :
    extractAux b (a :: l) acc = extractAux b l acc := by
  simp only [extractAux, pushAnchor, h]

theorem extractAux_documents (b : Chars) (l : List Anchor) (acc : Buckets) :
    (extractAux b l acc).documents =
      acc.documents ++ (extractAux b l ⟨[], [], []⟩).documents := by
  induction l generalizing acc with
  | nil => simp [extractAux]
  | cons a rest ih =>
    simp only [extractAux]
    rw [ih (pushAnchor b a acc), ih (pushAnchor b a ⟨[], [], []⟩)]
    have hpush : (pushAnchor b a acc).documents =
        acc.documents ++ (pushAnchor b a ⟨[], [], []⟩).documents := by
      unfold pushAnchor
      rcases hc : classifyAnchor b a with _ | ⟨bk, e⟩
      · simp
      · rcases bk <;> simp
    rw [hpush, List.append_assoc]

/-- Claim C6 (amended): anchors whose href is a `mailto:` link, a `tel:`
link, a bare `'#...'` fragment, or a `javascript:` pseudo-protocol href
contribute to none of the three output buckets of `extract_links`; an
href whose extension maps to a known document kind (here
`.../report.pdf`, kind pdf) is placed in the documents bucket.  A BARE
email-address or phone-number href, however, is resolved against the
page URL like any relative href before the email/phone patterns are
tested, so it is bucketed as an ordinary link (see the
counterexample). -/
theorem extractLinks_noise (base : Chars) (pre post : List Anchor) (a : Anchor)
    (s : Chars) :
    ((a.href = "mailto:".data ++ s ∨ a.href = "tel:".data ++ s ∨
      a.href = "#".data ++ s ∨ a.href = "javascript:".data ++ s) →
      extractLinks base (pre ++ a :: post) = extractLinks base (pre ++ post)) ∧
    (a.href = "https://site.example/files/report.pdf".data →
      (⟨"https://site.example/files/report.pdf".data,
        (if a.text = [] then "https://site.example/files/report.pdf".data
         else a.text), "pdf".data⟩ : LinkInfo) ∈
        (extractLinks base (pre ++ a :: post)).documents) := by
  constructor
  · intro h
    unfold extractLinks
    rw [extractAux_append, extractAux_append,
      extractAux_skip base a post _ (classify_noise base a s h)]
  · intro h
    unfold extractLinks
    rw [extractAux_append]
    rw [extractAux_documents base (a :: post)]
    refine List.mem_append_right _ ?_
    show _ ∈ (extractAux base post (pushAnchor base a ⟨[], [], []⟩)).documents
    rw [extractAux_documents]
    have hp : (pushAnchor base a ⟨[], [], []⟩).documents =
        [⟨"https://site.example/files/report.pdf".data,
          (if a.text = [] then "https://site.example/files/report.pdf".data
           else a.text), "pdf".data⟩] := by
      unfold pushAnchor
      rw [classify_report base a h]
      rfl
    rw [hp]
    simp

/-- Witness for C6: a `mailto:` anchor and a `.pdf` anchor against a
concrete page. -/
theorem extractLinks_noise_witness :
    extractLinks "http://site.com/page".data
        [⟨"mailto:someone@example.org".data, "m".data, false, false⟩] =
      extractLinks "http://site.com/page".data [] ∧
    (⟨"https://site.example/files/report.pdf".data, "r".data, "pdf".data⟩ :
        LinkInfo) ∈
      (extractLinks "http://site.com/page".data
        [⟨"https://site.example/files/report.pdf".data, "r".data, false,
          false⟩]).documents :=
  ⟨(extractLinks_noise "http://site.com/page".data [] []
      ⟨"mailto:someone@example.org".data, "m".data, false, false⟩
      "someone@example.org".data).1 (Or.inl rfl),
   (extractLinks_noise "http://site.com/page".data [] []
      ⟨"https://site.example/files/report.pdf".data, "r".data, false, false⟩
      []).2 rfl⟩

/-- Claim C6 counterexample: the claim says a bare email-address href is
placed in no bucket; in fact `a@b.com` (which the code's own
`_is_email_link` matches as written) is resolved against the page URL to
`http://site.com/a@b.com`, no longer matches the email pattern, and
lands in the content bucket. -/
theorem extractLinks_bare_email_in_content :
    isEmailLink "a@b.com".data = true ∧
    (extractLinks "http://site.com/page".data
        [⟨"a@b.com".data, "mail".data, false, false⟩]).content =
      [⟨"http://site.com/a@b.com".data, "mail".data, "page".data⟩] := by
  exact ⟨by decide, by decide⟩

end SiteMapper
